import Mathlib

/-!
Verification of the instruction-metering transformer in
`src/nf/nvm/v8/lib/instruction_counter.js` (go-nebulas).

The transformer is shallowly embedded: JavaScript objects of the esprima AST
become the inductive `ESNode`; the stateful record `Map` becomes an
insertion-ordered list threaded through the traversal; exceptions become
`Except JSError`.  Source strings are `List Char`, positions are code-unit
indices, exactly as in the JavaScript.

A JavaScript AST node is an object whose enumerable properties (besides the
scalar `type` / `name` / `range` / operators, which the traversal skips or
observes only through the accessors below) are child nodes or arrays of
child nodes.  `traverse` in the source treats arrays transparently: an array
is never pushed on the parent chain, the visitor invocation on the array
itself has no effect (an array has no `type`), and every element inherits
the injection context attached to the array's key.  The embedding therefore
flattens an array-valued property into consecutive `(key, element)` entries,
which is observationally equivalent.
-/

namespace NebulasIC

/-- The injection code generators of the source (`InjectionCodeGenerators`),
as first-class tags. -/
inductive Generator where
  | CounterIncrFunc
  | BlockStatementBeginAndCounterIncrFunc
  | BlockStatementEndAndCounterIncrFunc
  | InnerCounterIncrFunc
deriving DecidableEq, Repr

/-- `InjectionType` of the source. -/
inductive InjectionType where
  | BEFORE_NODE
  | AT_BEGINNING
  | INNER_BEGINNING
deriving DecidableEq, Repr

/-- The runtime failures `processScript` can raise: the explicit
`throw new Error("redefine _instruction_counter is now allowed.")` of the
guardrail, and the implicit JavaScript `TypeError` raised by dereferencing
a `null`/`undefined` value (e.g. `ancestor.node.type` when the parent-chain
sentinel is reached).  The source's
`throw new Error("Unknown Injection Type")` is unreachable in the typed
embedding because `InjectionType` is closed. -/
inductive JSError where
  | reservedIdentifier
  | typeError
deriving DecidableEq, Repr

/-- An esprima AST node: `type`, `name` (meaningful for `Identifier` nodes,
`""` elsewhere), the byte range `[rangeStart, rangeEnd)`, and the child
properties in enumeration order.  Array-valued properties are flattened
into repeated keys (see the module docstring). -/
inductive ESNode where
  | mk (ty nm : String) (rangeStart rangeEnd : Nat)
       (props : List (String × ESNode)) : ESNode
deriving Repr

def ESNode.ty : ESNode → String
  | .mk t _ _ _ _ => t

def ESNode.nm : ESNode → String
  | .mk _ n _ _ _ => n

def ESNode.rangeStart : ESNode → Nat
  | .mk _ _ a _ _ => a

def ESNode.rangeEnd : ESNode → Nat
  | .mk _ _ _ b _ => b

def ESNode.props : ESNode → List (String × ESNode)
  | .mk _ _ _ _ ps => ps

/-- Child access `node.key` (returns `none` for an absent or `null` child). -/
def getChild (n : ESNode) (key : String) : Option ESNode :=
  (n.props.find? (fun p => p.1 == key)).map (fun p => p.2)

/-- The `TrackingExpressions` table: tracked node types, each of weight 1. -/
def trackedTypes : List String :=
  ["CallExpression", "AssignmentExpression", "BinaryExpression",
   "UpdateExpression", "UnaryExpression", "LogicalExpression",
   "MemberExpression", "NewExpression", "ThrowStatement", "MetaProperty",
   "ConditionalExpression", "YieldExpression"]

/-- `TrackingExpressions[ty]` (`none` models JavaScript `undefined`). -/
def TrackingExpressions (ty : String) : Option Nat :=
  if ty ∈ trackedTypes then some 1 else none

/-- The `InjectableExpressions` table. -/
def injectableTypes : List String :=
  ["ExpressionStatement", "VariableDeclaration", "ReturnStatement",
   "ThrowStatement"]

/-- `ty in InjectableExpressions`. -/
def InjectableExpressions (ty : String) : Bool :=
  ty ∈ injectableTypes

/-- The emitted text of each generator at a given weight, as in
`InjectionCodeGenerators`. -/
def Generator.emit : Generator → Nat → List Char
  | .CounterIncrFunc, v =>
      ("_instruction_counter.incr(" ++ toString v ++ ");").toList
  | .BlockStatementBeginAndCounterIncrFunc, v =>
      if v > 0 then ("\x7b_instruction_counter.incr(" ++ toString v ++ ");").toList
      else "\x7b".toList
  | .BlockStatementEndAndCounterIncrFunc, v =>
      if v > 0 then ("_instruction_counter.incr(" ++ toString v ++ ");\x7d").toList
      else "\x7d".toList
  | .InnerCounterIncrFunc, v =>
      ("_instruction_counter.incr(" ++ toString v ++ ") && ").toList

/-- One injection record of the store (`{pos, value, func}`). -/
structure IRecord where
  pos : Nat
  value : Nat
  func : Generator
deriving DecidableEq, Repr

/-- `record_injection_info`: coalesce by position.  A position already
present gets its value increased in place (its emitter unchanged); a fresh
position is appended, as JavaScript `Map` insertion order does. -/
def record_injection_info (records : List IRecord) (pos value : Nat)
    (func : Generator) : List IRecord :=
  if records.any (fun r => r.pos == pos) then
    records.map (fun r =>
      if r.pos == pos then { r with value := r.value + value } else r)
  else
    records ++ [⟨pos, value, func⟩]

/-- `ensure_block_statement`: zero-weight block guardrails around a
non-block child. -/
def ensure_block_statement (records : List IRecord) (node : Option ESNode) :
    List IRecord :=
  match node with
  | none => records
  | some n =>
    if n.ty == "BlockStatement" then records
    else
      record_injection_info
        (record_injection_info records n.rangeStart 0
          .BlockStatementBeginAndCounterIncrFunc)
        n.rangeEnd 0 .BlockStatementEndAndCounterIncrFunc

/-- An entry `{node, key}` of the parent chain; the chain is terminated by
the sentinel `{node: null, key: ""}`. -/
structure ParentEntry where
  node : Option ESNode
  key : String

/-- `InjectionContext(node, type)`; `node` is `null` when the wrapped child
is absent (e.g. `for (;;)`). -/
structure InjectionContext where
  node : Option ESNode
  type : InjectionType

/-- The parent types at which `disallowRedefineOfInstructionCounter`
rejects an `_instruction_counter` identifier. -/
def reservedParentTypes : List String :=
  ["VariableDeclarator", "FunctionDeclaration", "FunctionExpression"]

/-- `disallowRedefineOfInstructionCounter`. -/
def disallowRedefineOfInstructionCounter (node : ESNode)
    (parents : List ParentEntry) : Except JSError Unit :=
  if node.ty == "Identifier" && node.nm == "_instruction_counter" then
    match parents with
    | [] => .error .typeError
    | p :: _ =>
      match p.node with
      | none => .ok ()
      | some pn =>
        if pn.ty ∈ reservedParentTypes then .error .reservedIdentifier
        else .ok ()
  else
    .ok ()

/-- The `for` loop of the default case that climbs the parent chain for the
first ancestor whose type is injectable.  Reaching the null sentinel
evaluates `ancestor.node.type` on `null`: a `TypeError`. -/
def findInjectableAncestor : List ParentEntry → Except JSError (Option ESNode)
  | [] => .ok none
  | p :: rest =>
    match p.node with
    | none => .error .typeError
    | some a =>
      if InjectableExpressions a.ty then .ok (some a)
      else findInjectableAncestor rest

/-- Lookup in a returned child-context mapping. -/
def lookupCtx (m : List (String × InjectionContext)) (key : String) :
    Option InjectionContext :=
  (m.find? (fun p => p.1 == key)).map (fun p => p.2)

/-- Line 40 of the source:
`injection_context ? injection_context[key] : injection_context_from_parent`.
When the visitor returned a mapping, a key absent from it yields no
context; only when the visitor returned nothing does the child inherit the
parent's context. -/
def injection_context_of_key
    (vres : Option (List (String × InjectionContext)))
    (inherited : Option InjectionContext) (key : String) :
    Option InjectionContext :=
  match vres with
  | some m => lookupCtx m key
  | none => inherited

/-- The control-flow dispatch of the visitor's `if`/`else if` chain on
`node.type` (lines 154-198): for a control-flow type, the children to pass
to `ensure_block_statement` (in source order) and the child-context mapping
returned; `none` for every other type (the chain falls through to the
tracked-expression default case). -/
def controlSpec (node : ESNode) :
    Option (List (Option ESNode) × List (String × InjectionContext)) :=
  match node.ty with
  | "IfStatement" =>
    some ([getChild node "consequent", getChild node "alternate"],
          [("test", ⟨getChild node "test", .INNER_BEGINNING⟩)])
  | "ForStatement" =>
    some ([getChild node "body"],
          [("init", ⟨some node, .BEFORE_NODE⟩),
           ("test", ⟨getChild node "test", .INNER_BEGINNING⟩),
           ("update", ⟨getChild node "update", .INNER_BEGINNING⟩)])
  | "ForInStatement" =>
    some ([getChild node "body"],
          [("left", ⟨some node, .BEFORE_NODE⟩),
           ("right", ⟨some node, .BEFORE_NODE⟩)])
  | "ForOfStatement" =>
    some ([getChild node "body"],
          [("left", ⟨some node, .BEFORE_NODE⟩),
           ("right", ⟨some node, .BEFORE_NODE⟩)])
  | "WhileStatement" =>
    some ([getChild node "body"],
          [("test", ⟨getChild node "test", .INNER_BEGINNING⟩)])
  | "DoWhileStatement" =>
    some ([getChild node "body"],
          [("test", ⟨getChild node "test", .INNER_BEGINNING⟩)])
  | "WithStatement" =>
    some ([getChild node "body"],
          [("object", ⟨some node, .BEFORE_NODE⟩)])
  | "SwitchStatement" =>
    some ([], [("discriminant", ⟨some node, .BEFORE_NODE⟩)])
  | _ => none

/-- Apply `ensure_block_statement` to each listed child in order. -/
def ensureAll (records : List IRecord) : List (Option ESNode) → List IRecord
  | [] => records
  | c :: cs => ensureAll (ensure_block_statement records c) cs

/-- `injection_context_from_parent.node` when a context is present, else
`null` (the `target_node = null` initialisation of the default case). -/
def ctxNode : Option InjectionContext → Option ESNode
  | some ic => ic.node
  | none => none

/-- `injection_context_from_parent.type` when a context is present, else
the default rule `BEFORE_NODE`. -/
def ctxType : Option InjectionContext → InjectionType
  | some ic => ic.type
  | none => .BEFORE_NODE

/-- Target resolution of the default case (lines 225-238): keep the
context's target when it is non-null, otherwise take the node itself when
injectable, otherwise search the parent chain. -/
def resolveTarget (node : ESNode) (parents : List ParentEntry)
    (target_init : Option ESNode) : Except JSError (Option ESNode) :=
  match target_init with
  | some t => .ok (some t)
  | none =>
    if InjectableExpressions node.ty then .ok (some node)
    else findInjectableAncestor parents

/-- Position and generator derived from the injection type (the `switch`
of lines 243-260). -/
def posgenOf (injection_type : InjectionType) (target : ESNode) :
    Nat × Generator :=
  match injection_type with
  | .BEFORE_NODE => (target.rangeStart, .CounterIncrFunc)
  | .AT_BEGINNING =>
      (if target.ty == "BlockStatement" then target.rangeStart + 1
       else target.rangeStart, .CounterIncrFunc)
  | .INNER_BEGINNING => (target.rangeStart, .InnerCounterIncrFunc)

/-- The tracked-expression default case of the visitor (lines 199-264). -/
def visitDefault (node : ESNode) (parents : List ParentEntry)
    (ctx : Option InjectionContext) (records : List IRecord) :
    Except JSError (List IRecord × Option (List (String × InjectionContext))) :=
  match TrackingExpressions node.ty with
  | none => .ok (records, none)
  | some tracing_val =>
    match parents with
    | [] => .error .typeError
    | p0 :: _ =>
      match p0.node with
      | none =>
        .ok (record_injection_info records node.rangeStart tracing_val
              .CounterIncrFunc, none)
      | some _ =>
        match resolveTarget node parents (ctxNode ctx) with
        | .error e => .error e
        | .ok none => .error .typeError
        | .ok (some target) =>
          .ok (record_injection_info records
                (posgenOf (ctxType ctx) target).1 tracing_val
                (posgenOf (ctxType ctx) target).2, none)

/-- The visitor passed to `traverse` by `processScript` (lines 149-266):
guardrail, control-flow cases with `ensure_block_statement` and returned
child contexts, and the tracked-expression default case. -/
def visit (node : ESNode) (parents : List ParentEntry)
    (ctx : Option InjectionContext) (records : List IRecord) :
    Except JSError (List IRecord × Option (List (String × InjectionContext))) :=
  match disallowRedefineOfInstructionCounter node parents with
  | .error e => .error e
  | .ok () =>
    match controlSpec node with
    | some (wraps, m) => .ok (ensureAll records wraps, some m)
    | none => visitDefault node parents ctx records

mutual

/-- `traverse` specialised to the `processScript` visitor: visit the node,
then descend into its properties with the contexts the visitor declared. -/
def traverseNode : ESNode → List ParentEntry → Option InjectionContext →
    List IRecord → Except JSError (List IRecord)
  | .mk ty nm rs re props, parents, ctx, records =>
    match visit (.mk ty nm rs re props) parents ctx records with
    | .error e => .error e
    | .ok (records1, vres) =>
      traverseProps (.mk ty nm rs re props) parents ctx vres props records1

/-- Descend into the property list of a node, left to right. -/
def traverseProps : ESNode → List ParentEntry → Option InjectionContext →
    Option (List (String × InjectionContext)) → List (String × ESNode) →
    List IRecord → Except JSError (List IRecord)
  | _, _, _, _, [], records => .ok records
  | node, parents, ctx, vres, (key, child) :: rest, records =>
    match traverseNode child (⟨some node, key⟩ :: parents)
        (injection_context_of_key vres ctx key) records with
    | .error e => .error e
    | .ok records1 => traverseProps node parents ctx vres rest records1

end

/-- JavaScript `source.slice(a, b)` on a code-unit list. -/
def strSlice (s : List Char) (a b : Nat) : List Char :=
  (s.drop a).take (b - a)

/-- The emission loop of `processScript`: walk the sorted records with a
cursor, alternating source slices and generator output. -/
def emitRecords (source : List Char) : List IRecord → Nat → List Char
  | [], start => source.drop start
  | r :: rs, start =>
      strSlice source start r.pos ++ r.func.emit r.value ++
        emitRecords source rs r.pos

/-- Comparator order of `ordered_records.sort((a, b) => a.pos - b.pos)`. -/
def recLE (a b : IRecord) : Prop := a.pos ≤ b.pos

instance : DecidableRel recLE := fun a b => Nat.decLe a.pos b.pos

instance : IsTotal IRecord recLE := ⟨fun a b => Nat.le_total a.pos b.pos⟩

instance : IsTrans IRecord recLE := ⟨fun _ _ _ h1 h2 => Nat.le_trans h1 h2⟩

/-- The sort of the emission phase (stable, keyed on `pos`). -/
def sortRecords (l : List IRecord) : List IRecord :=
  l.insertionSort recLE

/-- The initial parent chain `[{node: null, key: ""}]`. -/
def initialParents : List ParentEntry := [⟨none, ""⟩]

/-- `processScript` after parsing: traverse accumulating records, then
sort and splice.  The input AST stands for `esprima.parseScript(source)`. -/
def processScript (source : List Char) (ast : ESNode) :
    Except JSError (List Char) :=
  match traverseNode ast initialParents none [] with
  | .error e => .error e
  | .ok records => .ok (emitRecords source (sortRecords records) 0)

/-- A sequence of independent `processScript` invocations: each call builds
its own record store (`injection_records` is allocated inside
`processScript`), so a run of calls is the list of the individual results. -/
def transformSeq (inputs : List (List Char × ESNode)) :
    List (Except JSError (List Char)) :=
  inputs.map (fun p => processScript p.1 p.2)

/-! ### Derived measures and predicates over the embedding -/

/-- The weight a node itself contributes (its `TrackingExpressions` entry,
`0` for untracked types). -/
def trackedWeight (n : ESNode) : Nat :=
  (TrackingExpressions n.ty).getD 0

mutual

/-- Number of tracked nodes in a subtree, each counted with its weight. -/
def trackedCount : ESNode → Nat
  | .mk ty nm rs re props => trackedWeight (.mk ty nm rs re props) +
      trackedCountProps props

/-- Sum of `trackedCount` over a property list. -/
def trackedCountProps : List (String × ESNode) → Nat
  | [] => 0
  | (_, c) :: rest => trackedCount c + trackedCountProps rest

end

/-- `child` is an occurrence of the reserved identifier directly under a
binding parent, i.e. exactly what the guardrail rejects. -/
def isReservedBinding (parent child : ESNode) : Bool :=
  child.ty == "Identifier" && child.nm == "_instruction_counter" &&
    decide (parent.ty ∈ reservedParentTypes)

mutual

/-- The subtree contains an `_instruction_counter` identifier whose
immediate (array-transparent) parent is a `VariableDeclarator`,
`FunctionDeclaration` or `FunctionExpression`. -/
def containsReservedDef : ESNode → Bool
  | .mk ty nm rs re props =>
    containsReservedDefProps (.mk ty nm rs re props) props

/-- Worker of `containsReservedDef` over a property list. -/
def containsReservedDefProps : ESNode → List (String × ESNode) → Bool
  | _, [] => false
  | parent, (_, c) :: rest =>
    isReservedBinding parent c || containsReservedDef c ||
      containsReservedDefProps parent rest

end

/-- Absent child or block child: `ensure_block_statement` records nothing. -/
def blockOrAbsent : Option ESNode → Bool
  | none => true
  | some n => n.ty == "BlockStatement"

/-- The control-flow types whose `body` is wrapped by
`ensure_block_statement`. -/
def controlBodyTypes : List String :=
  ["ForStatement", "ForInStatement", "ForOfStatement", "WhileStatement",
   "DoWhileStatement", "WithStatement"]

/-- No bare (non-block) body at this node itself. -/
def bareFreeAt (n : ESNode) : Bool :=
  if n.ty == "IfStatement" then
    blockOrAbsent (getChild n "consequent") &&
      blockOrAbsent (getChild n "alternate")
  else if n.ty ∈ controlBodyTypes then
    blockOrAbsent (getChild n "body")
  else true

mutual

/-- Tracked-free and bare-body-free subtree: no visit of it records
anything. -/
def cleanNode : ESNode → Bool
  | .mk ty nm rs re props =>
    (TrackingExpressions ty).isNone && bareFreeAt (.mk ty nm rs re props) &&
      cleanProps props

/-- Worker of `cleanNode` over a property list. -/
def cleanProps : List (String × ESNode) → Bool
  | [] => true
  | (_, c) :: rest => cleanNode c && cleanProps rest

end

/-- Total recorded weight of a store. -/
def sumValues : List IRecord → Nat
  | [] => 0
  | r :: rs => r.value + sumValues rs

/-- The positions of a store, in store order. -/
def posList (recs : List IRecord) : List Nat :=
  recs.map (fun r => r.pos)

/-- The source slices between consecutive record positions (the pieces the
emission loop copies verbatim). -/
def segmentsFrom (src : List Char) (start : Nat) : List Nat → List (List Char)
  | [] => [src.drop start]
  | p :: ps => strSlice src start p :: segmentsFrom src p ps

/-- Interleave source segments with emitted strings:
`s0 ++ e1 ++ s1 ++ e2 ++ ... ++ ek ++ sk`. -/
def interleaveSegs : List (List Char) → List (List Char) → List Char
  | [], _ => []
  | s :: _, [] => s
  | s :: ss, e :: es => s ++ e ++ interleaveSegs ss es

/-- Concatenation of the source segments alone (the output with every
emitted string removed). -/
def joinSegs (segs : List (List Char)) : List Char :=
  segs.foldr (fun a b => a ++ b) []

/-! ### The record store viewed as a sequence of `insert_or_add` calls -/

/-- One `insert_or_add` request: `(pos, weight, emitter)`. -/
abbrev StoreOp := Nat × Nat × Generator

/-- Replay a sequence of `record_injection_info` calls on a store. -/
def applyOps (recs : List IRecord) (ops : List StoreOp) : List IRecord :=
  ops.foldl (fun rs op => record_injection_info rs op.1 op.2.1 op.2.2) recs

/-- The sub-sequence of calls aimed at position `p`. -/
def opsAt (p : Nat) (ops : List StoreOp) : List StoreOp :=
  ops.filter (fun o => o.1 == p)

/-- Total weight of a sequence of calls. -/
def opsWeight (ops : List StoreOp) : Nat :=
  (ops.map (fun o => o.2.1)).sum

/-- Store lookup by position (`injection_records.get(pos)`). -/
def findRecord (recs : List IRecord) (p : Nat) : Option IRecord :=
  recs.find? (fun r => r.pos == p)

/-! ### Concrete esprima ASTs

Modelled from the spec: the parser adapter (`esprima.js`, required by
`instruction_counter.js` but not under `src/`) returns ECMAScript-2016 ASTs
with code-unit ranges (§4.1 and §3 of the spec).  The constants below are
the ASTs the parser produces for the literal sources of the spec's
scenarios, with ranges computed from the literal strings. -/

/-- An `Identifier` node. -/
def ident (nm : String) (a b : Nat) : ESNode :=
  .mk "Identifier" nm a b []

/-- A `Literal` node. -/
def lit (a b : Nat) : ESNode :=
  .mk "Literal" "" a b []

/-- A node without a `name`. -/
def node1 (ty : String) (a b : Nat) (props : List (String × ESNode)) : ESNode :=
  .mk ty "" a b props

/-- Source of scenario S3. -/
def srcIf : List Char := "if (a > 0) a++;".toList

/-- AST of `if (a > 0) a++;`. -/
def astIf : ESNode :=
  node1 "Program" 0 15 [("body",
    node1 "IfStatement" 0 15 [
      ("test", node1 "BinaryExpression" 4 9
        [("left", ident "a" 4 5), ("right", lit 8 9)]),
      ("consequent", node1 "ExpressionStatement" 11 15 [("expression",
        node1 "UpdateExpression" 11 14 [("argument", ident "a" 11 12)])])])]

/-- Source with a tracked expression inside a `switch`-case test. -/
def srcSwitch : List Char := "switch (a) \x7b case b + c: break; \x7d".toList

/-- AST of `switch (a) { case b + c: break; }`. -/
def astSwitch : ESNode :=
  node1 "Program" 0 33 [("body",
    node1 "SwitchStatement" 0 33 [
      ("discriminant", ident "a" 8 9),
      ("cases", node1 "SwitchCase" 13 31 [
        ("test", node1 "BinaryExpression" 18 23
          [("left", ident "b" 18 19), ("right", ident "c" 22 23)]),
        ("consequent", node1 "BreakStatement" 25 31 [])])])]

/-- Source reading the counter as a declarator initializer. -/
def srcVarRead : List Char := "var x = _instruction_counter;".toList

/-- AST of `var x = _instruction_counter;`. -/
def astVarRead : ESNode :=
  node1 "Program" 0 29 [("body",
    node1 "VariableDeclaration" 0 29 [("declarations",
      node1 "VariableDeclarator" 4 28 [
        ("id", ident "x" 4 5),
        ("init", ident "_instruction_counter" 8 28)])])]

/-- Source binding the counter as an arrow-function parameter. -/
def srcArrow : List Char := "var f = (_instruction_counter) => 1;".toList

/-- AST of `var f = (_instruction_counter) => 1;`. -/
def astArrow : ESNode :=
  node1 "Program" 0 36 [("body",
    node1 "VariableDeclaration" 0 36 [("declarations",
      node1 "VariableDeclarator" 4 35 [
        ("id", ident "f" 4 5),
        ("init", node1 "ArrowFunctionExpression" 8 35 [
          ("params", ident "_instruction_counter" 9 29),
          ("body", lit 34 35)])])])]

/-- Source whose counter occurrence is a pure member read. -/
def srcIncrCall : List Char := "_instruction_counter.incr(1);".toList

/-- AST of `_instruction_counter.incr(1);`. -/
def astIncrCall : ESNode :=
  node1 "Program" 0 29 [("body",
    node1 "ExpressionStatement" 0 29 [("expression",
      node1 "CallExpression" 0 28 [
        ("callee", node1 "MemberExpression" 0 25 [
          ("object", ident "_instruction_counter" 0 20),
          ("property", ident "incr" 21 25)]),
        ("arguments", lit 26 27)])])]

/-- The empty program source. -/
def srcEmpty : List Char := "".toList

/-- AST of the empty program. -/
def astEmpty : ESNode :=
  node1 "Program" 0 0 []

/-- Source demonstrating context dropping: the `IfStatement` sits inside
the `while` test's subtree, which carries an `INNER_BEGINNING` context. -/
def srcWhileDemo : List Char :=
  "while (function () \x7b if (a) b(); \x7d()) \x7b\x7d".toList

/-- AST of `while (function () { if (a) b(); }()) {}`. -/
def astWhileDemo : ESNode :=
  node1 "Program" 0 40 [("body",
    node1 "WhileStatement" 0 40 [
      ("test", node1 "CallExpression" 7 36 [("callee",
        node1 "FunctionExpression" 7 34 [("body",
          node1 "BlockStatement" 19 34 [("body",
            node1 "IfStatement" 21 32 [
              ("test", ident "a" 25 26),
              ("consequent", node1 "ExpressionStatement" 28 32 [("expression",
                node1 "CallExpression" 28 31
                  [("callee", ident "b" 28 29)])])])])])]),
      ("body", node1 "BlockStatement" 38 40 [])])]

/-! ## Store lemmas -/

theorem pos_update_preserved (q v : Nat) (r : IRecord) :
    (if r.pos == q then { r with value := r.value + v } else r).pos = r.pos := by
  split <;> rfl

theorem posList_record_injection_info (recs : List IRecord) (q v : Nat)
    (f : Generator) :
    posList (record_injection_info recs q v f) =
      if recs.any (fun r => r.pos == q) then posList recs
      else posList recs ++ [q] := by
  unfold record_injection_info posList
  split
  · simp only [List.map_map]
    exact List.map_congr_left (fun r _ => pos_update_preserved q v r)
  · simp

theorem findRecord_record_injection_info_ne (recs : List IRecord)
    (q v : Nat) (f : Generator) (p : Nat) (hpq : p ≠ q) :
    findRecord (record_injection_info recs q v f) p = findRecord recs p := by
  unfold record_injection_info findRecord
  split
  · rw [List.find?_map]
    simp only [Function.comp_def, pos_update_preserved]
    cases hf : recs.find? (fun r => r.pos == p) with
    | none => rfl
    | some r =>
      have hp : r.pos = p := by simpa using List.find?_some hf
      have hq : (r.pos == q) = false := by simp [hp, hpq]
      rw [Option.map_some']
      simp only [hq]
      rfl
  · rw [List.find?_append]
    cases hf : recs.find? (fun r => r.pos == p) with
    | some r => rfl
    | none =>
      have hsingle : List.find? (fun r => r.pos == p) [(⟨q, v, f⟩ : IRecord)] =
          none := by
        have hqp : ((q : Nat) == p) = false := by simp [Ne.symm hpq]
        simp [List.find?_cons, hqp]
      rw [hsingle]
      rfl

theorem findRecord_record_injection_info_eq (recs : List IRecord)
    (q v : Nat) (f : Generator) :
    findRecord (record_injection_info recs q v f) q =
      match findRecord recs q with
      | some r => some { r with value := r.value + v }
      | none => some ⟨q, v, f⟩ := by
  unfold record_injection_info findRecord
  split
  case isTrue hany =>
    rw [List.find?_map]
    simp only [Function.comp_def, pos_update_preserved]
    rcases List.any_eq_true.mp hany with ⟨r0, hr0, hpos⟩
    cases hf : recs.find? (fun r => r.pos == q) with
    | none =>
      exact absurd (List.find?_eq_none.mp hf r0 hr0 hpos) (fun h => h)
    | some r =>
      have hp := List.find?_some hf
      rw [Option.map_some']
      simp only [hp]
      rfl
  case isFalse hany =>
    rw [List.find?_append]
    cases hf : recs.find? (fun r => r.pos == q) with
    | some r =>
      exact absurd (List.any_eq_true.mpr
        ⟨r, List.mem_of_find?_eq_some hf, List.find?_some hf⟩) hany
    | none =>
      simp [List.find?_cons]

theorem findRecord_applyOps (ops : List StoreOp) (recs : List IRecord)
    (p : Nat) :
    findRecord (applyOps recs ops) p =
      match findRecord recs p with
      | some r => some { r with value := r.value + opsWeight (opsAt p ops) }
      | none =>
        match opsAt p ops with
        | [] => none
        | o :: _ => some ⟨p, opsWeight (opsAt p ops), o.2.2⟩ := by
  induction ops generalizing recs with
  | nil =>
    simp only [applyOps, List.foldl_nil, opsAt, List.filter_nil, opsWeight,
      List.map_nil, List.sum_nil]
    cases findRecord recs p with
    | none => rfl
    | some r => simp
  | cons op rest ih =>
    have hstep : applyOps recs (op :: rest) =
        applyOps (record_injection_info recs op.1 op.2.1 op.2.2) rest := rfl
    rw [hstep, ih]
    by_cases hpq : op.1 = p
    · have hfilter : opsAt p (op :: rest) = op :: opsAt p rest := by
        simp [opsAt, List.filter_cons, hpq]
      rw [hfilter, ← hpq, findRecord_record_injection_info_eq]
      cases hf : findRecord recs op.1 with
      | some r => simp [opsWeight, Nat.add_assoc]
      | none => simp [opsWeight]
    · have hfilter : opsAt p (op :: rest) = opsAt p rest := by
        simp [opsAt, List.filter_cons, hpq]
      rw [hfilter, findRecord_record_injection_info_ne recs op.1 op.2.1 op.2.2 p
        (fun h => hpq h.symm)]

/-! ## Weight and position invariants of the store -/

theorem sumValues_append (a b : List IRecord) :
    sumValues (a ++ b) = sumValues a + sumValues b := by
  induction a with
  | nil => simp [sumValues]
  | cons r rs ih => simp [sumValues, ih, Nat.add_assoc]

theorem any_pos_iff (recs : List IRecord) (q : Nat) :
    recs.any (fun r => r.pos == q) = true ↔ q ∈ posList recs := by
  rw [List.any_eq_true]
  constructor
  · rintro ⟨r, hr, hpos⟩
    exact List.mem_map.mpr ⟨r, hr, eq_of_beq hpos⟩
  · intro hq
    rcases List.mem_map.mp hq with ⟨r, hr, hpos⟩
    exact ⟨r, hr, by simp [hpos]⟩

theorem sum_map_update (recs : List IRecord) (q v : Nat)
    (hnd : (posList recs).Nodup)
    (hany : recs.any (fun r => r.pos == q) = true) :
    sumValues (recs.map (fun r =>
      if r.pos == q then { r with value := r.value + v } else r)) =
      sumValues recs + v := by
  induction recs with
  | nil => cases hany
  | cons r rs ih =>
    have hnd0 : (∀ x ∈ rs, ¬x.pos = r.pos) ∧
        (List.map (fun r => r.pos) rs).Nodup := by
      simpa [posList] using hnd
    by_cases hr : (r.pos == q) = true
    · have hq : r.pos = q := eq_of_beq hr
      have htail : rs.map (fun r =>
          if r.pos == q then { r with value := r.value + v } else r) = rs := by
        conv_rhs => rw [← List.map_id rs]
        apply List.map_congr_left
        intro x hx
        have hxq : ¬(x.pos == q) = true := by
          intro hbq
          exact hnd0.1 x hx (by rw [eq_of_beq hbq, hq])
        simp [hxq]
      simp only [List.map_cons, htail, hr, if_true, sumValues]
      omega
    · have hrf : (r.pos == q) = false := by simpa using hr
      have htany : rs.any (fun r => r.pos == q) = true := by
        rw [List.any_cons, hrf] at hany
        simpa using hany
      simp only [List.map_cons, hrf, Bool.false_eq_true, if_false, sumValues]
      rw [ih (by simpa [posList] using hnd0.2) htany]
      omega

theorem sumValues_record_injection_info (recs : List IRecord) (q v : Nat)
    (f : Generator) (hnd : (posList recs).Nodup) :
    sumValues (record_injection_info recs q v f) = sumValues recs + v := by
  unfold record_injection_info
  split
  case isTrue hany => exact sum_map_update recs q v hnd hany
  case isFalse hany =>
    rw [sumValues_append]
    simp [sumValues]

theorem posNodup_record_injection_info (recs : List IRecord) (q v : Nat)
    (f : Generator) (hnd : (posList recs).Nodup) :
    (posList (record_injection_info recs q v f)).Nodup := by
  rw [posList_record_injection_info]
  split
  · exact hnd
  case isFalse hany =>
    have hq : q ∉ posList recs := fun hmem =>
      hany ((any_pos_iff recs q).mpr hmem)
    simp [List.nodup_append, hnd, hq]

theorem ensure_block_statement_nodup (recs : List IRecord) (c : Option ESNode)
    (hnd : (posList recs).Nodup) :
    (posList (ensure_block_statement recs c)).Nodup := by
  cases c with
  | none => exact hnd
  | some n =>
    simp only [ensure_block_statement]
    split
    · exact hnd
    · exact posNodup_record_injection_info _ _ _ _
        (posNodup_record_injection_info _ _ _ _ hnd)

theorem ensure_block_statement_sum (recs : List IRecord) (c : Option ESNode)
    (hnd : (posList recs).Nodup) :
    sumValues (ensure_block_statement recs c) = sumValues recs := by
  cases c with
  | none => rfl
  | some n =>
    simp only [ensure_block_statement]
    split
    · rfl
    · rw [sumValues_record_injection_info _ _ _ _
          (posNodup_record_injection_info _ _ _ _ hnd),
        sumValues_record_injection_info _ _ _ _ hnd]
      omega

theorem ensureAll_nodup (cs : List (Option ESNode)) (recs : List IRecord)
    (hnd : (posList recs).Nodup) :
    (posList (ensureAll recs cs)).Nodup := by
  induction cs generalizing recs with
  | nil => exact hnd
  | cons c cs ih => exact ih _ (ensure_block_statement_nodup _ _ hnd)

theorem ensureAll_sum (cs : List (Option ESNode)) (recs : List IRecord)
    (hnd : (posList recs).Nodup) :
    sumValues (ensureAll recs cs) = sumValues recs := by
  induction cs generalizing recs with
  | nil => rfl
  | cons c cs ih =>
    rw [show ensureAll recs (c :: cs) =
        ensureAll (ensure_block_statement recs c) cs from rfl,
      ih _ (ensure_block_statement_nodup _ _ hnd),
      ensure_block_statement_sum _ _ hnd]

theorem controlSpec_not_tracked (node : ESNode)
    (x : List (Option ESNode) × List (String × InjectionContext))
    (h : controlSpec node = some x) : TrackingExpressions node.ty = none := by
  unfold controlSpec at h
  split at h <;> simp_all [TrackingExpressions, trackedTypes]

theorem visitDefault_sum_nodup (node : ESNode) (parents : List ParentEntry)
    (ctx : Option InjectionContext) (recs recs' : List IRecord)
    (vres : Option (List (String × InjectionContext)))
    (hnd : (posList recs).Nodup)
    (h : visitDefault node parents ctx recs = .ok (recs', vres)) :
    (posList recs').Nodup ∧
      sumValues recs' = sumValues recs + trackedWeight node := by
  unfold visitDefault at h
  split at h
  case h_1 hnone =>
    cases h
    exact ⟨hnd, by simp [trackedWeight, hnone]⟩
  case h_2 tv htv =>
    split at h
    · cases h
    · split at h
      · cases h
        refine ⟨posNodup_record_injection_info _ _ _ _ hnd, ?_⟩
        rw [sumValues_record_injection_info _ _ _ _ hnd]
        simp [trackedWeight, htv]
      · split at h
        · cases h
        · cases h
        · cases h
          refine ⟨posNodup_record_injection_info _ _ _ _ hnd, ?_⟩
          rw [sumValues_record_injection_info _ _ _ _ hnd]
          simp [trackedWeight, htv]

theorem visit_sum_nodup (node : ESNode) (parents : List ParentEntry)
    (ctx : Option InjectionContext) (recs recs' : List IRecord)
    (vres : Option (List (String × InjectionContext)))
    (hnd : (posList recs).Nodup)
    (h : visit node parents ctx recs = .ok (recs', vres)) :
    (posList recs').Nodup ∧
      sumValues recs' = sumValues recs + trackedWeight node := by
  unfold visit at h
  split at h
  · cases h
  · split at h
    case h_1 pr wraps m hcs =>
      cases h
      refine ⟨ensureAll_nodup _ _ hnd, ?_⟩
      rw [ensureAll_sum _ _ hnd]
      have hnt := controlSpec_not_tracked node _ hcs
      simp [trackedWeight, hnt]
    case h_2 hns => exact visitDefault_sum_nodup _ _ _ _ _ _ hnd h

mutual

theorem traverseNode_sum_nodup : ∀ (node : ESNode) (parents : List ParentEntry)
    (ctx : Option InjectionContext) (recs recs' : List IRecord),
    traverseNode node parents ctx recs = .ok recs' →
    (posList recs).Nodup →
    (posList recs').Nodup ∧
      sumValues recs' = sumValues recs + trackedCount node
  | .mk ty nm rs re props, parents, ctx, recs, recs', h, hnd => by
    simp only [traverseNode] at h
    cases hv : visit (.mk ty nm rs re props) parents ctx recs with
    | error e => rw [hv] at h; cases h
    | ok pr =>
      obtain ⟨recs1, vres⟩ := pr
      rw [hv] at h
      have h1 := visit_sum_nodup _ _ _ _ _ _ hnd hv
      have h2 := traverseProps_sum_nodup (.mk ty nm rs re props) parents ctx
        vres props recs1 recs' h h1.1
      refine ⟨h2.1, ?_⟩
      rw [h2.2, h1.2, trackedCount]
      omega

theorem traverseProps_sum_nodup : ∀ (node : ESNode)
    (parents : List ParentEntry) (ctx : Option InjectionContext)
    (vres : Option (List (String × InjectionContext)))
    (props : List (String × ESNode)) (recs recs' : List IRecord),
    traverseProps node parents ctx vres props recs = .ok recs' →
    (posList recs).Nodup →
    (posList recs').Nodup ∧
      sumValues recs' = sumValues recs + trackedCountProps props
  | node, parents, ctx, vres, [], recs, recs', h, hnd => by
    simp only [traverseProps] at h
    cases h
    exact ⟨hnd, by simp [trackedCountProps]⟩
  | node, parents, ctx, vres, (key, child) :: rest, recs, recs', h, hnd => by
    simp only [traverseProps] at h
    cases ht : traverseNode child (⟨some node, key⟩ :: parents)
        (injection_context_of_key vres ctx key) recs with
    | error e => rw [ht] at h; cases h
    | ok recs1 =>
      rw [ht] at h
      have h1 := traverseNode_sum_nodup child _ _ recs recs1 ht hnd
      have h2 := traverseProps_sum_nodup node parents ctx vres rest recs1
        recs' h h1.1
      refine ⟨h2.1, ?_⟩
      rw [h2.2, h1.2, trackedCountProps]
      omega

end

/-! ## Guardrail lemmas -/

theorem disallow_root (node : ESNode) :
    disallowRedefineOfInstructionCounter node initialParents = .ok () := by
  unfold disallowRedefineOfInstructionCounter initialParents
  split <;> rfl

theorem disallow_ok_of_not_binding (parent child : ESNode) (key : String)
    (rest : List ParentEntry) (h : isReservedBinding parent child = false) :
    disallowRedefineOfInstructionCounter child
      (⟨some parent, key⟩ :: rest) = .ok () := by
  unfold disallowRedefineOfInstructionCounter
  split
  case isTrue hid =>
    unfold isReservedBinding at h
    rw [hid] at h
    simp only [Bool.true_and] at h
    simp [of_decide_eq_false h]
  case isFalse => rfl

theorem not_binding_of_disallow_ok (parent child : ESNode) (key : String)
    (rest : List ParentEntry)
    (h : disallowRedefineOfInstructionCounter child
      (⟨some parent, key⟩ :: rest) = .ok ()) :
    isReservedBinding parent child = false := by
  by_cases hid : (child.ty == "Identifier" &&
      child.nm == "_instruction_counter") = true
  · by_cases hp : parent.ty ∈ reservedParentTypes
    · exfalso
      have hbad : disallowRedefineOfInstructionCounter child
          (⟨some parent, key⟩ :: rest) = .error .reservedIdentifier := by
        unfold disallowRedefineOfInstructionCounter
        rw [if_pos hid]
        simp [hp]
      rw [hbad] at h
      cases h
    · unfold isReservedBinding
      rw [hid]
      simp [hp]
  · unfold isReservedBinding
    rw [Bool.not_eq_true] at hid
    rw [hid]
    simp

theorem findInjectableAncestor_not_reserved (parents : List ParentEntry) :
    findInjectableAncestor parents ≠ .error .reservedIdentifier := by
  induction parents with
  | nil => intro h; cases h
  | cons p rest ih =>
    intro h
    unfold findInjectableAncestor at h
    cases hn : p.node with
    | none => simp [hn] at h
    | some a =>
      simp only [hn] at h
      by_cases hi : InjectableExpressions a.ty = true
      · rw [if_pos hi] at h; cases h
      · rw [if_neg hi] at h; exact ih h

theorem resolveTarget_not_reserved (node : ESNode)
    (parents : List ParentEntry) (ti : Option ESNode) :
    resolveTarget node parents ti ≠ .error .reservedIdentifier := by
  intro h
  unfold resolveTarget at h
  cases ti with
  | some t => simp at h
  | none =>
    by_cases hi : InjectableExpressions node.ty = true
    · rw [if_pos hi] at h; cases h
    · rw [if_neg hi] at h
      exact findInjectableAncestor_not_reserved parents h

theorem visitDefault_not_reserved (node : ESNode)
    (parents : List ParentEntry) (ctx : Option InjectionContext)
    (recs : List IRecord) :
    visitDefault node parents ctx recs ≠ .error .reservedIdentifier := by
  intro hc
  unfold visitDefault at hc
  split at hc
  · cases hc
  · split at hc
    · cases hc
    · split at hc
      · cases hc
      · split at hc
        · cases hc
          exact resolveTarget_not_reserved _ _ _ (by assumption)
        · cases hc
        · cases hc

theorem visit_reserved_means_guardrail (node : ESNode)
    (parents : List ParentEntry) (ctx : Option InjectionContext)
    (recs : List IRecord)
    (h : visit node parents ctx recs = .error .reservedIdentifier) :
    disallowRedefineOfInstructionCounter node parents =
      .error .reservedIdentifier := by
  unfold visit at h
  split at h
  case h_1 e hd => cases h; exact hd
  case h_2 hd =>
    split at h
    · cases h
    · exact absurd h (visitDefault_not_reserved _ _ _ _)

theorem traverseNode_ok_visit_ok : ∀ (node : ESNode)
    (parents : List ParentEntry) (ctx : Option InjectionContext)
    (recs recs' : List IRecord),
    traverseNode node parents ctx recs = .ok recs' →
    ∃ pr, visit node parents ctx recs = .ok pr
  | .mk ty nm rs re props, parents, ctx, recs, recs', h => by
    simp only [traverseNode] at h
    cases hv : visit (.mk ty nm rs re props) parents ctx recs with
    | error e => rw [hv] at h; cases h
    | ok pr => exact ⟨pr, rfl⟩

theorem visit_ok_disallow_ok (node : ESNode) (parents : List ParentEntry)
    (ctx : Option InjectionContext) (recs : List IRecord)
    (pr : List IRecord × Option (List (String × InjectionContext)))
    (h : visit node parents ctx recs = .ok pr) :
    disallowRedefineOfInstructionCounter node parents = .ok () := by
  unfold visit at h
  split at h
  · cases h
  case h_2 hd => exact hd

mutual

theorem traverseNode_no_reserved : ∀ (node : ESNode)
    (parents : List ParentEntry) (ctx : Option InjectionContext)
    (recs : List IRecord),
    disallowRedefineOfInstructionCounter node parents = .ok () →
    containsReservedDef node = false →
    traverseNode node parents ctx recs ≠ .error .reservedIdentifier
  | .mk ty nm rs re props, parents, ctx, recs, hdis, hcrd, h => by
    simp only [traverseNode] at h
    cases hv : visit (.mk ty nm rs re props) parents ctx recs with
    | error e =>
      rw [hv] at h
      cases h
      exact absurd (visit_reserved_means_guardrail _ _ _ _ hv)
        (by rw [hdis]; intro hc; cases hc)
    | ok pr =>
      obtain ⟨recs1, vres⟩ := pr
      rw [hv] at h
      exact traverseProps_no_reserved (.mk ty nm rs re props) parents ctx
        vres props recs1 (by simpa [containsReservedDef] using hcrd) h

theorem traverseProps_no_reserved : ∀ (node : ESNode)
    (parents : List ParentEntry) (ctx : Option InjectionContext)
    (vres : Option (List (String × InjectionContext)))
    (props : List (String × ESNode)) (recs : List IRecord),
    containsReservedDefProps node props = false →
    traverseProps node parents ctx vres props recs ≠ .error .reservedIdentifier
  | node, parents, ctx, vres, [], recs, hcrd, h => by
    simp only [traverseProps] at h
    cases h
  | node, parents, ctx, vres, (key, child) :: rest, recs, hcrd, h => by
    have hsplit : (isReservedBinding node child = false ∧
        containsReservedDef child = false) ∧
        containsReservedDefProps node rest = false := by
      simpa [containsReservedDefProps] using hcrd
    simp only [traverseProps] at h
    cases ht : traverseNode child (⟨some node, key⟩ :: parents)
        (injection_context_of_key vres ctx key) recs with
    | error e =>
      rw [ht] at h
      cases h
      exact traverseNode_no_reserved child _ _ recs
        (disallow_ok_of_not_binding node child key parents hsplit.1.1)
        hsplit.1.2 ht
    | ok recs1 =>
      rw [ht] at h
      exact traverseProps_no_reserved node parents ctx vres rest recs1
        hsplit.2 h

end

mutual

theorem traverseNode_ok_no_reserved : ∀ (node : ESNode)
    (parents : List ParentEntry) (ctx : Option InjectionContext)
    (recs recs' : List IRecord),
    traverseNode node parents ctx recs = .ok recs' →
    containsReservedDef node = false
  | .mk ty nm rs re props, parents, ctx, recs, recs', h => by
    simp only [traverseNode] at h
    cases hv : visit (.mk ty nm rs re props) parents ctx recs with
    | error e => rw [hv] at h; cases h
    | ok pr =>
      obtain ⟨recs1, vres⟩ := pr
      rw [hv] at h
      simpa [containsReservedDef] using
        traverseProps_ok_no_reserved (.mk ty nm rs re props) parents ctx
          vres props recs1 recs' h

theorem traverseProps_ok_no_reserved : ∀ (node : ESNode)
    (parents : List ParentEntry) (ctx : Option InjectionContext)
    (vres : Option (List (String × InjectionContext)))
    (props : List (String × ESNode)) (recs recs' : List IRecord),
    traverseProps node parents ctx vres props recs = .ok recs' →
    containsReservedDefProps node props = false
  | node, parents, ctx, vres, [], recs, recs', h => by
    simp [containsReservedDefProps]
  | node, parents, ctx, vres, (key, child) :: rest, recs, recs', h => by
    simp only [traverseProps] at h
    cases ht : traverseNode child (⟨some node, key⟩ :: parents)
        (injection_context_of_key vres ctx key) recs with
    | error e => rw [ht] at h; cases h
    | ok recs1 =>
      rw [ht] at h
      have hbind : isReservedBinding node child = false := by
        obtain ⟨pr, hvk⟩ := traverseNode_ok_visit_ok child
          (⟨some node, key⟩ :: parents)
          (injection_context_of_key vres ctx key) recs recs1 ht
        exact not_binding_of_disallow_ok node child key parents
          (visit_ok_disallow_ok _ _ _ _ _ hvk)
      have h1 := traverseNode_ok_no_reserved child _ _ recs recs1 ht
      have h2 := traverseProps_ok_no_reserved node parents ctx vres rest
        recs1 recs' h
      simp [containsReservedDefProps, hbind, h1, h2]

end

/-! ## No-op lemmas for tracked-free, bare-body-free input -/

theorem ensure_block_statement_noop (recs : List IRecord) (c : Option ESNode)
    (h : blockOrAbsent c = true) : ensure_block_statement recs c = recs := by
  cases c with
  | none => rfl
  | some n =>
    simp only [blockOrAbsent] at h
    simp [ensure_block_statement, h]

theorem ensureAll_noop (cs : List (Option ESNode)) (recs : List IRecord)
    (h : ∀ c ∈ cs, blockOrAbsent c = true) : ensureAll recs cs = recs := by
  induction cs generalizing recs with
  | nil => rfl
  | cons c cs ih =>
    rw [show ensureAll recs (c :: cs) =
        ensureAll (ensure_block_statement recs c) cs from rfl,
      ensure_block_statement_noop recs c (h c (List.mem_cons_self c cs))]
    exact ih recs (fun d hd => h d (List.mem_cons_of_mem c hd))

theorem controlSpec_wraps_clean (node : ESNode)
    (wraps : List (Option ESNode)) (m : List (String × InjectionContext))
    (hb : bareFreeAt node = true) (h : controlSpec node = some (wraps, m)) :
    ∀ c ∈ wraps, blockOrAbsent c = true := by
  unfold controlSpec at h
  split at h <;>
    (try cases h) <;>
    simp_all [bareFreeAt, controlBodyTypes]

theorem visitDefault_untracked (node : ESNode) (parents : List ParentEntry)
    (ctx : Option InjectionContext) (recs : List IRecord)
    (h : TrackingExpressions node.ty = none) :
    visitDefault node parents ctx recs = .ok (recs, none) := by
  unfold visitDefault
  rw [h]

theorem visit_clean (node : ESNode) (parents : List ParentEntry)
    (ctx : Option InjectionContext) (recs recs' : List IRecord)
    (vres : Option (List (String × InjectionContext)))
    (hnt : TrackingExpressions node.ty = none)
    (hb : bareFreeAt node = true)
    (h : visit node parents ctx recs = .ok (recs', vres)) : recs' = recs := by
  unfold visit at h
  split at h
  · cases h
  · split at h
    case h_1 pr wraps m hcs =>
      cases h
      exact ensureAll_noop wraps recs (controlSpec_wraps_clean node wraps m hb hcs)
    case h_2 =>
      rw [visitDefault_untracked node parents ctx recs hnt] at h
      cases h
      rfl

mutual

theorem traverseNode_clean : ∀ (node : ESNode) (parents : List ParentEntry)
    (ctx : Option InjectionContext) (recs recs' : List IRecord),
    cleanNode node = true →
    traverseNode node parents ctx recs = .ok recs' → recs' = recs
  | .mk ty nm rs re props, parents, ctx, recs, recs', hcl, h => by
    have hcl3 : (TrackingExpressions ty = none ∧
        bareFreeAt (.mk ty nm rs re props) = true) ∧
        cleanProps props = true := by
      simpa [cleanNode] using hcl
    simp only [traverseNode] at h
    cases hv : visit (.mk ty nm rs re props) parents ctx recs with
    | error e => rw [hv] at h; cases h
    | ok pr =>
      obtain ⟨recs1, vres⟩ := pr
      rw [hv] at h
      have h1 : recs1 = recs := visit_clean _ parents ctx recs recs1 vres
        (by simpa [ESNode.ty] using hcl3.1.1) hcl3.1.2 hv
      subst h1
      exact traverseProps_clean (.mk ty nm rs re props) parents ctx vres
        props recs1 recs' hcl3.2 h

theorem traverseProps_clean : ∀ (node : ESNode)
    (parents : List ParentEntry) (ctx : Option InjectionContext)
    (vres : Option (List (String × InjectionContext)))
    (props : List (String × ESNode)) (recs recs' : List IRecord),
    cleanProps props = true →
    traverseProps node parents ctx vres props recs = .ok recs' → recs' = recs
  | node, parents, ctx, vres, [], recs, recs', hcl, h => by
    simp only [traverseProps] at h
    cases h
    rfl
  | node, parents, ctx, vres, (key, child) :: rest, recs, recs', hcl, h => by
    have hcl2 : cleanNode child = true ∧ cleanProps rest = true := by
      simpa [cleanProps] using hcl
    simp only [traverseProps] at h
    cases ht : traverseNode child (⟨some node, key⟩ :: parents)
        (injection_context_of_key vres ctx key) recs with
    | error e => rw [ht] at h; cases h
    | ok recs1 =>
      rw [ht] at h
      have h1 : recs1 = recs :=
        traverseNode_clean child _ _ recs recs1 hcl2.1 ht
      subst h1
      exact traverseProps_clean node parents ctx vres rest recs1 recs'
        hcl2.2 h

end

/-! ## Emission lemmas -/

theorem strSlice_append_drop (src : List Char) (a b : Nat) (hab : a ≤ b) :
    strSlice src a b ++ src.drop b = src.drop a := by
  unfold strSlice
  have hdrop : src.drop b = List.drop (b - a) (src.drop a) := by
    rw [List.drop_drop]
    congr 1
    omega
  rw [hdrop, List.take_append_drop]

theorem emitRecords_eq_interleave (src : List Char) (recs : List IRecord)
    (start : Nat) :
    emitRecords src recs start =
      interleaveSegs (segmentsFrom src start (posList recs))
        (recs.map (fun r => r.func.emit r.value)) := by
  induction recs generalizing start with
  | nil => rfl
  | cons r rs ih =>
    simp only [emitRecords]
    rw [ih r.pos]
    rfl

theorem joinSegs_segmentsFrom (src : List Char) (ps : List Nat) (start : Nat)
    (hch : List.Chain (· ≤ ·) start ps) :
    joinSegs (segmentsFrom src start ps) = src.drop start := by
  induction ps generalizing start with
  | nil => simp [segmentsFrom, joinSegs]
  | cons p ps ih =>
    rcases List.chain_cons.mp hch with ⟨hsp, hch2⟩
    simp only [segmentsFrom, joinSegs, List.foldr_cons]
    have hrec : List.foldr (fun a b => a ++ b) [] (segmentsFrom src p ps) =
        src.drop p := ih p hch2
    rw [hrec, strSlice_append_drop src start p hsp]

theorem sortRecords_perm (l : List IRecord) :
    List.Perm (sortRecords l) l :=
  List.perm_insertionSort recLE l

theorem sortRecords_sorted (l : List IRecord) :
    List.Sorted recLE (sortRecords l) :=
  List.sorted_insertionSort recLE l

theorem sorted_posList_chain (rs : List IRecord)
    (hs : List.Sorted recLE rs) :
    List.Chain (· ≤ ·) 0 (posList rs) := by
  rw [List.chain_iff_pairwise]
  rw [List.pairwise_cons]
  constructor
  · intro p _; exact Nat.zero_le p
  · rw [posList, List.pairwise_map]
    exact hs

theorem sorted_posList_chain_lt (rs : List IRecord)
    (hs : List.Sorted recLE rs) (hnd : (posList rs).Nodup) :
    List.Chain' (· < ·) (posList rs) := by
  apply List.Pairwise.chain'
  have hle : (posList rs).Pairwise (· ≤ ·) := by
    rw [posList, List.pairwise_map]
    exact hs
  have hne : (posList rs).Pairwise (· ≠ ·) := hnd
  exact (hle.and hne).imp (fun h => Nat.lt_of_le_of_ne h.1 h.2)

/-! ## Claim theorems -/

/-- C8: for every accepted program whose AST contains zero tracked nodes
and no control-flow construct with a non-block (present, non-`BlockStatement`)
wrapped child, the transform returns the source unchanged: no record is
ever created, and emission degenerates to copying the source. -/
theorem noop_on_tracked_free (src out : List Char) (ast : ESNode)
    (hclean : cleanNode ast = true)
    (h : processScript src ast = .ok out) : out = src := by
  unfold processScript at h
  cases ht : traverseNode ast initialParents none [] with
  | error e => rw [ht] at h; cases h
  | ok recs =>
    rw [ht] at h
    cases h
    have hr : recs = [] :=
      traverseNode_clean ast initialParents none [] recs hclean ht
    subst hr
    rfl

/-- Concrete instance of C8: the empty program maps to itself with no
records. -/
theorem noop_on_tracked_free_witness :
    cleanNode astEmpty = true ∧
      processScript srcEmpty astEmpty = .ok [] ∧ ([] : List Char) = srcEmpty :=
  ⟨rfl, rfl, noop_on_tracked_free srcEmpty [] astEmpty rfl rfl⟩

/-- C6: for every accepted input, the output is the source with the
emitter strings inserted at the record positions: there is a record list
(the sorted store) whose positions are strictly ascending and duplicate
free, such that the output interleaves the source slices between
consecutive positions with the emitted strings, and concatenating the
source slices alone (removing every emitted string) gives back the input
byte for byte. -/
theorem emission_inserts_only (src out : List Char) (ast : ESNode)
    (h : processScript src ast = .ok out) :
    ∃ rs : List IRecord,
      List.Chain' (· < ·) (posList rs) ∧
      out = interleaveSegs (segmentsFrom src 0 (posList rs))
          (rs.map (fun r => r.func.emit r.value)) ∧
      joinSegs (segmentsFrom src 0 (posList rs)) = src := by
  unfold processScript at h
  cases ht : traverseNode ast initialParents none [] with
  | error e => rw [ht] at h; cases h
  | ok recs =>
    rw [ht] at h
    cases h
    have hnd : (posList recs).Nodup :=
      (traverseNode_sum_nodup ast initialParents none [] recs ht
        (by simp [posList])).1
    have hnds : (posList (sortRecords recs)).Nodup := by
      have hperm : List.Perm (posList (sortRecords recs)) (posList recs) := by
        unfold posList
        exact (sortRecords_perm recs).map (fun r => r.pos)
      exact hperm.nodup_iff.mpr hnd
    refine ⟨sortRecords recs, ?_, ?_, ?_⟩
    · exact sorted_posList_chain_lt _ (sortRecords_sorted recs) hnds
    · exact emitRecords_eq_interleave src (sortRecords recs) 0
    · rw [joinSegs_segmentsFrom src _ 0
        (sorted_posList_chain _ (sortRecords_sorted recs))]
      exact List.drop_zero src

/-- Concrete instance of C6 on `if (a > 0) a++;`. -/
theorem emission_inserts_only_witness :
    ∃ rs : List IRecord,
      List.Chain' (· < ·) (posList rs) ∧
      ("if (_instruction_counter.incr(1) && a > 0) " ++
          "\x7b_instruction_counter.incr(1);a++;\x7d").toList =
        interleaveSegs (segmentsFrom srcIf 0 (posList rs))
          (rs.map (fun r => r.func.emit r.value)) ∧
      joinSegs (segmentsFrom srcIf 0 (posList rs)) = srcIf :=
  emission_inserts_only srcIf _ astIf rfl

/-- C9: when the classifier returns a child-context mapping, a child key
not enumerated in the mapping is traversed with no injection context at
all (the inherited context is dropped, not passed through); concretely, in
`while (function () { if (a) b(); }()) {}` the `CallExpression` inside the
`IfStatement`'s consequent does not see the `INNER_BEGINNING` context of
the enclosing `while` test: it falls back to the default `BEFORE_NODE`
rule and injects at its own `ExpressionStatement`, not at the test. -/
theorem unlisted_child_context_dropped :
    (∀ (m : List (String × InjectionContext)) (inh : Option InjectionContext)
        (key : String), lookupCtx m key = none →
        injection_context_of_key (some m) inh key = none) ∧
    processScript srcWhileDemo astWhileDemo =
      .ok ("while (_instruction_counter.incr(1) && function () \x7b if (a) " ++
        "\x7b_instruction_counter.incr(1);b();\x7d \x7d()) \x7b\x7d").toList :=
  ⟨fun m inh key h => by simp [injection_context_of_key, h], rfl⟩

/-- Discharge of the conditional part of C9 at the `IfStatement` mapping:
the key `consequent` is not enumerated, so the context is dropped. -/
theorem unlisted_child_context_dropped_witness :
    lookupCtx [("test",
        (⟨none, InjectionType.INNER_BEGINNING⟩ : InjectionContext))]
      "consequent" = none ∧
    injection_context_of_key
      (some [("test",
        (⟨none, InjectionType.INNER_BEGINNING⟩ : InjectionContext))])
      (some ⟨none, InjectionType.INNER_BEGINNING⟩) "consequent" = none :=
  ⟨rfl, unlisted_child_context_dropped.1 _ _ _ rfl⟩

/-- C10: `processScript` is deterministic and purely functional per
invocation: in any sequence of invocations, each call's result is exactly
`processScript` of its own input, unaffected by the calls before or after
it (the record store is created inside the call and discarded at its
end, which the embedding reflects by allocating the store per call). -/
theorem transform_pure_per_invocation (pre post : List (List Char × ESNode))
    (src : List Char) (ast : ESNode) :
    transformSeq (pre ++ (src, ast) :: post) =
      transformSeq pre ++ processScript src ast :: transformSeq post := by
  unfold transformSeq
  simp

/-- C1: for the input `if (a > 0) a++;`, the transform succeeds and returns
exactly `if (_instruction_counter.incr(1) && a > 0)
{_instruction_counter.incr(1);a++;}`: the bare consequent is wrapped by the
ensure-block records, the `BinaryExpression` in the test contributes an
`INNER_BEGINNING` prefix at the test's start, and the `UpdateExpression`'s
weight coalesces into the block-begin record at the consequent's start. -/
theorem if_bare_consequent_scenario :
    processScript srcIf astIf =
      .ok ("if (_instruction_counter.incr(1) && a > 0) " ++
        "\x7b_instruction_counter.incr(1);a++;\x7d").toList := by
  rfl

/-- C2 (failing input): on the syntactically valid program
`switch (a) { case b + c: break; }`, which binds no
`_instruction_counter`, the transform does not run to completion: the
tracked `BinaryExpression` in the case test has no ancestor in the
injectable-statement set, the parent-chain search dereferences the null
sentinel, and the invocation aborts with a `TypeError` — an error that is
neither `ParseError` nor `ReservedIdentifierError`. -/
theorem switch_case_test_type_error :
    processScript srcSwitch astSwitch = .error .typeError := by
  rfl

/-- C3 (counterexample): in `var x = _instruction_counter;` the reserved
identifier occurs solely as a pure read (the initializer expression of a
variable declarator), yet the transform fails with
`ReservedIdentifierError`, because the guardrail tests only the type of the
immediate parent (`VariableDeclarator`), not whether the occurrence is a
binding site. -/
theorem var_read_rejected :
    processScript srcVarRead astVarRead = .error .reservedIdentifier := by
  rfl

/-- C3 (amended): the guardrail keys on the immediate parent's type, not
on binding: for every input in which no `_instruction_counter` identifier
has an immediate parent of type `VariableDeclarator`, `FunctionDeclaration`
or `FunctionExpression` (in particular, every pure read or call whose
parent is e.g. a `MemberExpression` or `AssignmentExpression`), the
transform does not fail with `ReservedIdentifierError`. -/
theorem no_reserved_error_without_reserved_parent (src : List Char)
    (ast : ESNode) (h : containsReservedDef ast = false) :
    processScript src ast ≠ .error .reservedIdentifier := by
  intro hc
  unfold processScript at hc
  cases ht : traverseNode ast initialParents none [] with
  | error e =>
    rw [ht] at hc
    cases hc
    exact traverseNode_no_reserved ast initialParents none []
      (disallow_root ast) h ht
  | ok recs => rw [ht] at hc; cases hc

/-- Concrete instance of C3 (amended): `_instruction_counter.incr(1);`
reads the counter through a `MemberExpression` parent and is not rejected. -/
theorem no_reserved_error_without_reserved_parent_witness :
    containsReservedDef astIncrCall = false ∧
      processScript srcIncrCall astIncrCall ≠ .error .reservedIdentifier :=
  ⟨rfl, no_reserved_error_without_reserved_parent srcIncrCall astIncrCall rfl⟩

/-- C4 (amended): in every accepted input, no `_instruction_counter`
identifier has an immediate parent of type `VariableDeclarator`,
`FunctionDeclaration` or `FunctionExpression`; binding forms with other
parent types (arrow-function parameters, catch-clause parameters) are not
excluded by acceptance. -/
theorem accepted_has_no_reserved_parent_binding (src out : List Char)
    (ast : ESNode) (h : processScript src ast = .ok out) :
    containsReservedDef ast = false := by
  unfold processScript at h
  cases ht : traverseNode ast initialParents none [] with
  | error e => rw [ht] at h; cases h
  | ok recs =>
    exact traverseNode_ok_no_reserved ast initialParents none [] recs ht

/-- Concrete instance of C4 (amended) on the accepted `if (a > 0) a++;`. -/
theorem accepted_has_no_reserved_parent_binding_witness :
    processScript srcIf astIf =
      .ok ("if (_instruction_counter.incr(1) && a > 0) " ++
        "\x7b_instruction_counter.incr(1);a++;\x7d").toList ∧
    containsReservedDef astIf = false :=
  ⟨rfl, accepted_has_no_reserved_parent_binding srcIf _ astIf rfl⟩

/-- C7: the injection-record store coalesces by position: for every
sequence of `insert_or_add(pos, w, emitter)` calls (replayed from the empty
store), the record at a position holds the sum of all weights contributed
at that position, and its emitter is the one supplied by the first
insertion at that position, unchanged by later insertions. -/
theorem store_coalesces_by_position (ops : List StoreOp) (p : Nat)
    (o0 : StoreOp) (rest0 : List StoreOp)
    (h : opsAt p ops = o0 :: rest0) :
    findRecord (applyOps [] ops) p =
      some ⟨p, opsWeight (opsAt p ops), o0.2.2⟩ := by
  rw [findRecord_applyOps, h]
  rfl

/-- Concrete instance of C7: three calls, two of them at position 5; the
record at 5 sums the weights 1 and 2 and keeps the first emitter. -/
theorem store_coalesces_by_position_witness :
    opsAt 5 [((5 : Nat), (1 : Nat), Generator.CounterIncrFunc),
             (5, 2, Generator.InnerCounterIncrFunc),
             (3, 4, Generator.CounterIncrFunc)] =
      ((5 : Nat), (1 : Nat), Generator.CounterIncrFunc) ::
        [((5 : Nat), (2 : Nat), Generator.InnerCounterIncrFunc)] ∧
    findRecord (applyOps []
        [((5 : Nat), (1 : Nat), Generator.CounterIncrFunc),
         (5, 2, Generator.InnerCounterIncrFunc),
         (3, 4, Generator.CounterIncrFunc)]) 5 =
      some ⟨5, opsWeight (opsAt 5
        [((5 : Nat), (1 : Nat), Generator.CounterIncrFunc),
         (5, 2, Generator.InnerCounterIncrFunc),
         (3, 4, Generator.CounterIncrFunc)]), Generator.CounterIncrFunc⟩ :=
  ⟨rfl, store_coalesces_by_position
    [((5 : Nat), (1 : Nat), Generator.CounterIncrFunc),
     (5, 2, Generator.InnerCounterIncrFunc),
     (3, 4, Generator.CounterIncrFunc)] 5
    ((5 : Nat), (1 : Nat), Generator.CounterIncrFunc)
    [((5 : Nat), (2 : Nat), Generator.InnerCounterIncrFunc)] rfl⟩

/-- C5: for every accepted input, each tracked node contributes its weight
to exactly one injection record: the sum of the record weights equals the
weighted count of tracked nodes in the AST. -/
theorem weight_conservation (ast : ESNode) (recs : List IRecord)
    (h : traverseNode ast initialParents none [] = .ok recs) :
    sumValues recs = trackedCount ast := by
  have hmain := traverseNode_sum_nodup ast initialParents none [] recs h
    (by simp [posList])
  simpa [sumValues] using hmain.2

/-- Concrete instance of C5 on `if (a > 0) a++;`: the traversal succeeds
with records of total weight 2, the number of tracked nodes
(`BinaryExpression` and `UpdateExpression`). -/
theorem weight_conservation_witness :
    traverseNode astIf initialParents none [] =
      .ok [⟨11, 1, Generator.BlockStatementBeginAndCounterIncrFunc⟩,
           ⟨15, 0, Generator.BlockStatementEndAndCounterIncrFunc⟩,
           ⟨4, 1, Generator.InnerCounterIncrFunc⟩] ∧
    sumValues [⟨11, 1, Generator.BlockStatementBeginAndCounterIncrFunc⟩,
           ⟨15, 0, Generator.BlockStatementEndAndCounterIncrFunc⟩,
           ⟨4, 1, Generator.InnerCounterIncrFunc⟩] = trackedCount astIf :=
  ⟨rfl, weight_conservation astIf _ rfl⟩

/-- C4 (counterexample): `var f = (_instruction_counter) => 1;` binds
`_instruction_counter` as an arrow-function parameter — a shadowing binding
form — yet the transform accepts the program (returning it unchanged),
because `ArrowFunctionExpression` is not among the three parent types the
guardrail checks. -/
theorem arrow_param_shadowing_accepted :
    processScript srcArrow astArrow = .ok srcArrow ∧
      (getChild (node1 "ArrowFunctionExpression" 8 35
          [("params", ident "_instruction_counter" 9 29),
           ("body", lit 34 35)]) "params").map ESNode.nm =
        some "_instruction_counter" := by
  exact ⟨rfl, rfl⟩

end NebulasIC
